import Mathlib

/-!
Verification of the pyrallis type-directed decode/encode engine.

This file is a shallow embedding of the core of the pyrallis configuration
library: the runtime value universe, the type-annotation grammar, the
recursive decoder built by `get_decoding_fn` (pyrallis/parsers/decoding.py),
the runtime-type-directed encoder (pyrallis/parsers/encoding.py), the
decoder registry/memoization state (functools.lru_cache + register), the
source-merging helpers (pyrallis/utils.py, pyrallis/argparsing.py) and the
scoped config-format override (pyrallis/options.py).

Conventions of the embedding:
* Python objects are represented by the inductive `Value`; Python dicts are
  insertion-ordered association lists, mirroring dict semantics since 3.7.
* Fallible Python code returns `Except DErr Value`; each `DErr` constructor
  corresponds to one raise site (or builtin exception) in the source.
* Machine floats, `bytes`, `pathlib.Path` and `set` fields are outside the
  modelled fragment; none of the checked claims depends on them.
-/

set_option autoImplicit false

namespace Pyrallis

/-- The universe of runtime values handled by the engine: Python `None`,
`int`, `str`, `bool`, `list`, `tuple`, `dict` (insertion-ordered pairs),
enum members (enum type name and member name) and dataclass instances
(class name and attribute map in field-declaration order). -/
inductive Value where
  | vnone
  | vint (n : Int)
  | vstr (s : String)
  | vbool (b : Bool)
  | vlist (xs : List Value)
  | vtuple (xs : List Value)
  | vdict (xs : List (Value × Value))
  | venum (ename mname : String)
  | vinst (cname : String) (fs : List (String × Value))

open Value

mutual

/-- Boolean equality on values (Python `==` restricted to this universe). -/
def beqValue : Value → Value → Bool
  | vnone, vnone => true
  | vint n, vint m => n == m
  | vstr s, vstr t => s == t
  | vbool a, vbool b => a == b
  | vlist xs, vlist ys => beqValueList xs ys
  | vtuple xs, vtuple ys => beqValueList xs ys
  | vdict xs, vdict ys => beqValuePairs xs ys
  | venum e m, venum e' m' => e == e' && m == m'
  | vinst c fs, vinst c' fs' => c == c' && beqValueFields fs fs'
  | _, _ => false
termination_by structural a _ => a

def beqValueList : List Value → List Value → Bool
  | [], [] => true
  | x :: xs, y :: ys => beqValue x y && beqValueList xs ys
  | _, _ => false
termination_by structural xs _ => xs

def beqValuePairs : List (Value × Value) → List (Value × Value) → Bool
  | [], [] => true
  | (k, v) :: xs, (k', v') :: ys => beqValue k k' && beqValue v v' && beqValuePairs xs ys
  | _, _ => false
termination_by structural xs _ => xs

def beqValueFields : List (String × Value) → List (String × Value) → Bool
  | [], [] => true
  | (n, v) :: xs, (n', v') :: ys => n == n' && beqValue v v' && beqValueFields xs ys
  | _, _ => false
termination_by structural xs _ => xs

end

mutual

theorem beqValue_iff_eq : ∀ a b : Value, beqValue a b = true ↔ a = b := by
  intro a b
  cases a <;> cases b <;> simp [beqValue] <;>
    first
      | rfl
      | (rw [beqValueList_iff_eq])
      | (rw [beqValuePairs_iff_eq])
      | (rw [beqValueFields_iff_eq]; tauto)

theorem beqValueList_iff_eq : ∀ xs ys : List Value, beqValueList xs ys = true ↔ xs = ys := by
  intro xs ys
  match xs, ys with
  | [], [] => simp [beqValueList]
  | [], _ :: _ => simp [beqValueList]
  | _ :: _, [] => simp [beqValueList]
  | x :: xs, y :: ys =>
    simp only [beqValueList, Bool.and_eq_true, List.cons.injEq]
    rw [beqValue_iff_eq, beqValueList_iff_eq]

theorem beqValuePairs_iff_eq :
    ∀ xs ys : List (Value × Value), beqValuePairs xs ys = true ↔ xs = ys := by
  intro xs ys
  match xs, ys with
  | [], [] => simp [beqValuePairs]
  | [], _ :: _ => simp [beqValuePairs]
  | _ :: _, [] => simp [beqValuePairs]
  | (k, v) :: xs, (k', v') :: ys =>
    simp only [beqValuePairs, Bool.and_eq_true, List.cons.injEq, Prod.mk.injEq]
    rw [beqValue_iff_eq, beqValue_iff_eq, beqValuePairs_iff_eq]

theorem beqValueFields_iff_eq :
    ∀ xs ys : List (String × Value), beqValueFields xs ys = true ↔ xs = ys := by
  intro xs ys
  match xs, ys with
  | [], [] => simp [beqValueFields]
  | [], _ :: _ => simp [beqValueFields]
  | _ :: _, [] => simp [beqValueFields]
  | (n, v) :: xs, (n', v') :: ys =>
    simp only [beqValueFields, Bool.and_eq_true, List.cons.injEq, Prod.mk.injEq, beq_iff_eq]
    rw [beqValue_iff_eq, beqValueFields_iff_eq]

end

instance : DecidableEq Value := fun a b =>
  decidable_of_iff (beqValue a b = true) (beqValue_iff_eq a b)

instance {ε α : Type} [DecidableEq ε] [DecidableEq α] : DecidableEq (Except ε α) :=
  fun a b =>
    match a, b with
    | .ok x, .ok y =>
      if h : x = y then .isTrue (by rw [h]) else .isFalse (by simp [h])
    | .error x, .error y =>
      if h : x = y then .isTrue (by rw [h]) else .isFalse (by simp [h])
    | .ok _, .error _ => .isFalse (by simp)
    | .error _, .ok _ => .isFalse (by simp)

@[simp] theorem exceptBind_ok {ε α β : Type} (a : α) (f : α → Except ε β) :
    (Except.ok a >>= f) = f a := rfl

@[simp] theorem exceptBind_error {ε α β : Type} (e : ε) (f : α → Except ε β) :
    ((Except.error e : Except ε α) >>= f) = Except.error e := rfl

@[simp] theorem exceptMap_ok {ε α β : Type} (a : α) (f : α → β) :
    Except.map f (Except.ok a : Except ε α) = Except.ok (f a) := rfl

@[simp] theorem exceptMap_error {ε α β : Type} (e : ε) (f : α → β) :
    Except.map f (Except.error e : Except ε α) = Except.error e := rfl

/-! ## Python builtin coercion semantics

The decoders registered for the primitive types are the type constructors
themselves (`decode.register(t, t)` for `str`, `int`, `bool`, ... in
decoding.py), so decoding a primitive-typed field runs the Python builtin
coercion `int(raw)` / `str(raw)` / `bool(raw)`.  The definitions below embed
those builtins on the modelled value universe. -/

/-- Python truthiness, as used by the builtin `bool(x)` (which never fails):
`None`, `0`, empty strings and empty containers are falsy; enum members and
dataclass instances are truthy. -/
def pyTruthy : Value → Bool
  | vnone => false
  | vint n => n != 0
  | vstr s => s != ""
  | vbool b => b
  | vlist xs => !xs.isEmpty
  | vtuple xs => !xs.isEmpty
  | vdict xs => !xs.isEmpty
  | venum _ _ => true
  | vinst _ _ => true

/-- Interprets a list of characters as a nonempty run of decimal digits. -/
def decDigitsToNat : List Char → Option Nat
  | [] => none
  | cs =>
    if cs.all Char.isDigit then
      some (cs.foldl (fun acc c => acc * 10 + (c.toNat - 48)) 0)
    else none

/-- Python `int(s)` on a string: surrounding whitespace is stripped, an
optional sign is allowed, and the rest must be a nonempty digit run. -/
def pyParseInt (s : String) : Option Int :=
  let stripped :=
    ((s.toList.dropWhile Char.isWhitespace).reverse.dropWhile Char.isWhitespace).reverse
  match stripped with
  | '+' :: cs => (decDigitsToNat cs).map Int.ofNat
  | '-' :: cs => (decDigitsToNat cs).map (fun n => -(n : Int))
  | cs => (decDigitsToNat cs).map Int.ofNat

mutual

/-- Python `repr` on the modelled universe (the enum-member arm elides the
member value, which `Value.venum` does not carry; no theorem depends on it). -/
def pyRepr : Value → String
  | vnone => "None"
  | vint n => toString n
  | vstr s => "'" ++ s ++ "'"
  | vbool b => if b then "True" else "False"
  | vlist xs => "[" ++ pyReprItems xs ++ "]"
  | vtuple [x] => "(" ++ pyRepr x ++ ",)"
  | vtuple xs => "(" ++ pyReprItems xs ++ ")"
  | vdict xs => "\x7b" ++ pyReprPairs xs ++ "\x7d"
  | venum e m => e ++ "." ++ m
  | vinst c fs => c ++ "(" ++ pyReprFields fs ++ ")"
termination_by structural v => v

def pyReprItems : List Value → String
  | [] => ""
  | [x] => pyRepr x
  | x :: xs => pyRepr x ++ ", " ++ pyReprItems xs
termination_by structural xs => xs

def pyReprPairs : List (Value × Value) → String
  | [] => ""
  | [(k, v)] => pyRepr k ++ ": " ++ pyRepr v
  | (k, v) :: xs => pyRepr k ++ ": " ++ pyRepr v ++ ", " ++ pyReprPairs xs
termination_by structural xs => xs

def pyReprFields : List (String × Value) → String
  | [] => ""
  | [(n, v)] => n ++ "=" ++ pyRepr v
  | (n, v) :: xs => n ++ "=" ++ pyRepr v ++ ", " ++ pyReprFields xs
termination_by structural xs => xs

end

/-- Python `str(x)` (total): the identity on strings, `repr`-like elsewhere. -/
def pyStr : Value → String
  | vstr s => s
  | v => pyRepr v

mutual

/-- Python hashability: `list`, `dict` (and tuples containing them) cannot be
dictionary keys. -/
def isHashable : Value → Bool
  | vlist _ => false
  | vdict _ => false
  | vtuple xs => isHashableList xs
  | _ => true
termination_by structural v => v

def isHashableList : List Value → Bool
  | [] => true
  | x :: xs => isHashable x && isHashableList xs
termination_by structural xs => xs

end

/-- Python `d[k] = v` on an insertion-ordered dict represented as a pair
list: an existing key keeps its position and gets the new value, a new key
is appended. -/
def pyDictSetItem : List (Value × Value) → Value → Value → List (Value × Value)
  | [], k, v => [(k, v)]
  | (k', v') :: rest, k, v =>
    if k' = k then (k', v) :: rest else (k', v') :: pyDictSetItem rest k v

/-- Replays a pair sequence into a dict with `d[k] = v` per pair, as the
loops in `decode_dict` (decoding.py) and `encode_dict` (encoding.py) do. -/
def buildPyDict (ps : List (Value × Value)) : List (Value × Value) :=
  ps.foldl (fun acc p => pyDictSetItem acc p.1 p.2) []

/-- Python `obj_dict.pop(name)` on a raw mapping: removes and returns the
value of the first pair whose key is the string `name`. -/
def popKey : List (Value × Value) → String → Option (Value × List (Value × Value))
  | [], _ => none
  | (k, v) :: rest, n =>
    if k = vstr n then some (v, rest)
    else match popKey rest n with
      | none => none
      | some (r, rest') => some (r, (k, v) :: rest')

/-- First value stored under a string key in an argument map. -/
def lookupStr : List (String × Value) → String → Option Value
  | [], _ => none
  | (k, v) :: rest, n => if k = n then some v else lookupStr rest n

/-! ## Type annotations

`get_decoding_fn` (decoding.py) dispatches on the shape of the annotation:
registered primitive, dataclass, `Any`, `Dict`, `Set`, `Tuple`, `List`,
`Union`, enum.  The grammar below carries one constructor per dispatch arm
of the modelled fragment (`float`, `bytes`, `Path` and `Set` are other
registered scalars / container arms of the same shape and are omitted;
no claim depends on them).  A bare `List`/`Dict`/`Tuple[T, ...]` annotation
is represented with `anyA` item types, exactly as the source defaults
missing type arguments to `typing.Any`. -/

/-- An enumeration type: its name and its members as (name, value) pairs.
Python enums with duplicate member values alias them away, so values are
unique in any enum the source can meet. -/
structure EnumDef where
  ename : String
  members : List (String × Value)

/-- The modelled type-annotation grammar.  `dataA` fields carry
(name, annotation, optional default, init flag) in declaration order,
mirroring `dataclasses.fields`. -/
inductive Ann where
  | intA
  | strA
  | boolA
  | noneA
  | anyA
  | enumA (e : EnumDef)
  | listA (t : Ann)
  | tupleA (ts : List Ann)
  | tupleVarA (t : Ann)
  | dictA (kt vt : Ann)
  | unionA (ts : List Ann)
  | dataA (cname : String) (fs : List (String × Ann × Option Value × Bool))

/-- One dataclass field: name, declared annotation, default (`None` when the
field is required), and the `init` flag. -/
abbrev FieldSpec := String × Ann × Option Value × Bool

/-- Decode-time failures.  Each constructor stands for one raise site of the
source (or the builtin exception escaping from it):

* `noDecodeFn` — `raise Exception(f"No decoding function for type {t} ...")`
  at the end of `get_decoding_fn`;
* `intParseError` — the `ValueError`/`TypeError` raised by the builtin
  `int(raw)` registered as the decoder of `int`;
* `enumValueError` — the `ValueError` raised by calling the enum class on a
  raw value that is no member *value* (`get_decoding_fn` returns the enum
  class itself for enum annotations);
* `assertNotAList` — the `AssertionError` of `assert type(val) == list` in
  `decode_list`;
* `notIterable` — the `TypeError`/`AttributeError` raised when iterating or
  `.copy()`-ing a raw value of the wrong shape;
* `badDictItem` — the unpacking `TypeError` of `for k, v in items` in
  `decode_dict` when an item is not a pair;
* `arityMismatch` — the `TypeError` `'Trying to decode ... values for a
  predfined ...-Tuple'` in `decode_tuple`;
* `noValidParsing` — the `TypeError(f"No valid parsing for value {val}")`
  in `try_functions`;
* `extraFields` — `raise Exception(f'The fields {extra_args} do not belong
  to the class')` in `decode_dataclass`;
* `cantInstantiate` — the `RuntimeError` wrapping the constructor
  `TypeError` in `decode_dataclass`;
* `parsingError` — the dedicated decode error `pyrallis.utils.ParsingError`
  carrying owning class, field name, declared type, raw value and cause.
  It is defined in utils.py but no code under src/ ever raises it. -/
inductive DErr where
  | noDecodeFn (tname : String)
  | intParseError (raw : Value)
  | enumValueError (ename : String) (raw : Value)
  | assertNotAList (raw : Value)
  | notIterable (raw : Value)
  | badDictItem (item : Value)
  | arityMismatch (got expected : Nat)
  | noValidParsing (raw : Value)
  | extraFields (rest : List (Value × Value))
  | cantInstantiate (cname fname : String)
  | parsingError (cname fname tname : String) (raw : Value) (cause : String)
  deriving DecidableEq

/-- True exactly for the dedicated decode-error kind (`ParsingError`). -/
def DErr.isParsingError : DErr → Bool
  | .parsingError _ _ _ _ _ => true
  | _ => false

/-- Python `int(raw)`, the decoder registered for `int`: identity on ints,
`True`/`False` to 1/0, digit-run parsing on strings, `TypeError` elsewhere. -/
def pyIntCoerce : Value → Except DErr Value
  | vint n => .ok (vint n)
  | vbool b => .ok (vint (if b then 1 else 0))
  | vstr s =>
    match pyParseInt s with
    | some n => .ok (vint n)
    | none => .error (.intParseError (vstr s))
  | v => .error (.intParseError v)

/-- Decodes every element of a list with the given element decoder, keeping
order and stopping at the first failure (the comprehension in
`decode_list`). -/
def exceptMapList (f : Value → Except DErr Value) : List Value → Except DErr (List Value)
  | [] => .ok []
  | x :: xs => do
    let r ← f x
    let rs ← exceptMapList f xs
    pure (r :: rs)

/-- Decodes every (key, value) pair with the key and value decoders, in
insertion order (the loop of `_decode_dict`). -/
def exceptMapPairs (fk fv : Value → Except DErr Value) :
    List (Value × Value) → Except DErr (List (Value × Value))
  | [] => .ok []
  | (k, v) :: ps => do
    let k2 ← fk k
    let v2 ← fv v
    let rest ← exceptMapPairs fk fv ps
    pure ((k2, v2) :: rest)

/-- `for k, v in items` over a raw list: every item must be a two-element
sequence. -/
def unpackDictItems : List Value → Except DErr (List (Value × Value))
  | [] => .ok []
  | vlist [k, v] :: items => (unpackDictItems items).map (fun rest => (k, v) :: rest)
  | vtuple [k, v] :: items => (unpackDictItems items).map (fun rest => (k, v) :: rest)
  | item :: _ => .error (.badDictItem item)

/-- `cls(**init_args)` followed by `setattr` of the non-init values, fused
into one pass over the declared fields: an init field takes its collected
argument, else its declared default, else the constructor fails on the first
missing required argument (the `TypeError` that `decode_dataclass` re-raises
as `RuntimeError`); a non-init field takes the value `setattr` assigns after
construction, else its default, else the attribute stays absent. -/
def constructFields (cname : String) (initArgs nonInitArgs : List (String × Value)) :
    List FieldSpec → Except DErr (List (String × Value))
  | [] => .ok []
  | (n, _, dflt, finit) :: fs =>
    match (if finit then lookupStr initArgs n else lookupStr nonInitArgs n) with
    | some v => do
      let rest ← constructFields cname initArgs nonInitArgs fs
      pure ((n, v) :: rest)
    | none =>
      match dflt with
      | some d => do
        let rest ← constructFields cname initArgs nonInitArgs fs
        pure ((n, d) :: rest)
      | none =>
        if finit then .error (.cantInstantiate cname n)
        else constructFields cname initArgs nonInitArgs fs

/-- The instance produced by `decode_dataclass` after construction and the
non-init `setattr` loop. -/
def constructInstance (cname : String) (fs : List FieldSpec)
    (initArgs nonInitArgs : List (String × Value)) : Except DErr Value :=
  (constructFields cname initArgs nonInitArgs fs).map (vinst cname)

/-- Recognizes `type(None)` among union members (`type(None) in types` in
`decode_union`). -/
def isNoneAnn : Ann → Bool
  | .noneA => true
  | _ => false

mutual

/-- The decode engine: `decode(t, raw_value)` = `get_decoding_fn(t)(raw_value)`
from decoding.py, with the dispatch of `get_decoding_fn` and the decoder it
builds fused into one recursive function.  Arms, in source dispatch order:
registered primitives (`int`, `str`, `bool` applied as coercions), dataclass
(`decode_dataclass`), `Any` (`no_op`), dict (`decode_dict`), tuple
(`decode_tuple`, fixed and variadic), list (`decode_list`), union
(`decode_union` over `try_functions`), enum (the enum class itself, i.e.
lookup of the raw value among member *values*), and failure for an
unresolvable annotation (`NoneType` outside a union).  The `lru_cache`
memoization of `get_decoding_fn` is semantically invisible here because the
resolver is pure; its interaction with later registrations is modelled
separately by `getDecodingFn`/`registerDecodingFn` below. -/
def decode : Ann → Value → Except DErr Value
  | .intA, v => pyIntCoerce v
  | .strA, v => .ok (vstr (pyStr v))
  | .boolA, v => .ok (vbool (pyTruthy v))
  | .noneA, _ => .error (.noDecodeFn "NoneType")
  | .anyA, v => .ok v
  | .enumA e, v =>
    match e.members.find? (fun m => decide (m.2 = v)) with
    | some m => .ok (venum e.ename m.1)
    | none => .error (.enumValueError e.ename v)
  | .listA t, v =>
    match v with
    | vlist xs => (exceptMapList (fun x => decode t x) xs).map vlist
    | _ => .error (.assertNotAList v)
  | .tupleVarA t, v =>
    match v with
    | vlist xs => (exceptMapList (fun x => decode t x) xs).map vtuple
    | _ => .error (.notIterable v)
  | .tupleA ts, v =>
    match v with
    | vlist xs =>
      match ts with
      | [] => .ok (vtuple xs)
      | _ :: _ =>
        if ts.length = xs.length then (decodeTupleZip ts xs).map vtuple
        else .error (.arityMismatch xs.length ts.length)
    | _ => .error (.notIterable v)
  | .dictA kt vt, v =>
    match v with
    | vdict ps =>
      (exceptMapPairs (fun k => decode kt k) (fun w => decode vt w) ps).map
        (fun ds => vdict (buildPyDict ds))
    | vlist items => do
      let ps ← unpackDictItems items
      (exceptMapPairs (fun k => decode kt k) (fun w => decode vt w) ps).map
        (fun ds => vdict (buildPyDict ds))
    | _ => .error (.notIterable v)
  | .unionA ts, v => decodeUnionGo (ts.any isNoneAnn) ts v
  | .dataA cname fs, v =>
    match v with
    | vnone => .ok vnone
    | vdict pairs =>
      match decodeDataFields fs pairs with
      | .error e => .error e
      | .ok (ia, na, rest) =>
        if rest.isEmpty then constructInstance cname fs ia na
        else .error (.extraFields rest)
    | other => .error (.notIterable other)

/-- Positional decoding of a fixed-arity tuple (`decode_tuple` without
ellipsis); only reached after the length check. -/
def decodeTupleZip : List Ann → List Value → Except DErr (List Value)
  | [], _ => .ok []
  | _ :: _, [] => .ok []
  | t :: ts, x :: xs => do
    let r ← decode t x
    let rs ← decodeTupleZip ts xs
    pure (r :: rs)

/-- `decode_union` composed with `try_functions`: the `None` members are
skipped (the source removes them up front, which yields the same branch
sequence); when any was present every remaining branch decoder is wrapped
as `decode_optional`, which passes `None` through unchanged; branches are
tried in declaration order with failures suppressed, and exhausting them
raises the single aggregate `TypeError`. -/
def decodeUnionGo : Bool → List Ann → Value → Except DErr Value
  | _, [], v => .error (.noValidParsing v)
  | opt, t :: ts, v =>
    if isNoneAnn t then decodeUnionGo opt ts v
    else
      match (if opt && decide (v = vnone) then Except.ok vnone else decode t v) with
      | .ok r => .ok r
      | .error _ => decodeUnionGo opt ts v

/-- The field loop of `decode_dataclass`: walks the declared fields in
order; a field present in the raw dict is popped and decoded (errors
propagate unchanged), a missing field is only warned about; returns the
collected init arguments, non-init arguments and the leftover raw pairs. -/
def decodeDataFields : List FieldSpec → List (Value × Value) →
    Except DErr (List (String × Value) × List (String × Value) × List (Value × Value))
  | [], pairs => .ok ([], [], pairs)
  | (n, t, _, finit) :: fs, pairs =>
    match popKey pairs n with
    | none => decodeDataFields fs pairs
    | some (raw, rest) =>
      match decode t raw with
      | .error e => .error e
      | .ok fv =>
        match decodeDataFields fs rest with
        | .error e => .error e
        | .ok (ia, na, rem) =>
          if finit then .ok ((n, fv) :: ia, na, rem) else .ok (ia, (n, fv) :: na, rem)

end

/-- `decode_optional(t)` from decoding.py, abstracted over the resolved
decoder of `t`: `None` is returned unchanged without consulting the wrapped
decoder, anything else is handed to it. -/
def decodeOptionalWith (dec : Value → Except DErr Value) (v : Value) : Except DErr Value :=
  if v = vnone then .ok vnone else dec v

/-- `try_functions` from decoding.py: try each function in order, suppress
its failure, return the first success; raise the aggregate `TypeError` when
every function failed. -/
def tryFunctions (fns : List (Value → Except DErr Value)) (v : Value) : Except DErr Value :=
  match fns with
  | [] => .error (.noValidParsing v)
  | f :: rest =>
    match f v with
    | .ok r => .ok r
    | .error _ => tryFunctions rest v

/-- The branch decoders `decode_union` builds: `None` members removed, each
remaining branch resolved, and wrapped in `decode_optional` when the union
was optional. -/
def unionBranchFns (ts : List Ann) : List (Value → Except DErr Value) :=
  (ts.filter (fun t => !isNoneAnn t)).map
    (fun t => if ts.any isNoneAnn then decodeOptionalWith (decode t) else decode t)

/-! ## The encode engine

`encode` (encoding.py) dispatches on the *runtime type* of the value:
dataclass instances become dicts of their encoded fields, enum members
become their declared *name* (`encode_enum`), lists/tuples/sets become lists
of encoded elements, mappings are re-built with encoded keys and values
(falling back to a list of pairs when an encoded key is not hashable),
scalars and `None` pass through. -/

mutual

/-- The runtime-type-directed encoder `encode` from encoding.py, restricted
to the modelled universe (on which it is total: every constructor of `Value`
has a registered or built-in encoder arm).  The mixed case of `encode_dict`
in which only some encoded keys are hashable mid-loop crashes in the source
(item assignment on a list); the fallback arm here is taken only when some
key is unhashable, which coincides with the source on the uniform cases and
is never reached from a well-typed dict. -/
def encode : Value → Value
  | vnone => vnone
  | vint n => vint n
  | vstr s => vstr s
  | vbool b => vbool b
  | vlist xs => vlist (encodeItems xs)
  | vtuple xs => vlist (encodeItems xs)
  | vdict xs =>
    let ps := encodePairs xs
    if ps.all (fun p => isHashable p.1) then vdict (buildPyDict ps)
    else vlist (ps.map (fun p => vtuple [p.1, p.2]))
  | venum _ mname => vstr mname
  | vinst _ fs => vdict (encodeFields fs)
termination_by structural v => v

def encodeItems : List Value → List Value
  | [] => []
  | x :: xs => encode x :: encodeItems xs
termination_by structural xs => xs

def encodePairs : List (Value × Value) → List (Value × Value)
  | [] => []
  | (k, v) :: xs => (encode k, encode v) :: encodePairs xs
termination_by structural xs => xs

def encodeFields : List (String × Value) → List (Value × Value)
  | [] => []
  | (n, v) :: xs => (vstr n, encode v) :: encodeFields xs
termination_by structural xs => xs

end

/-! ## The fragment on which the round-trip law is proved

`wellformed` carves out the schema fragment for the amended round-trip law:
primitive scalars, enums whose member values equal their member names,
lists, fixed and variadic tuples, dicts with scalar keys, `Optional[T]`
(the union shape `Union[T, None]` that `typing.Optional` produces) and
nested dataclasses with duplicate-free field names.  `Any`, bare containers
and multi-branch unions are excluded: their decoders are not inverse to the
encoder (see the counterexample for claim C1).  `welltyped a v` states that
the runtime value `v` is an instance of the annotation `a` — i.e. that `v`
is constructible from the schema. -/

/-- Annotations whose encoded values are scalars, hence always usable as
dict keys. -/
def scalarKeyAnn : Ann → Bool
  | .intA => true
  | .strA => true
  | .boolA => true
  | .enumA _ => true
  | _ => false

mutual

/-- `v` is an instance of the annotation `a`. -/
def welltyped : Ann → Value → Bool
  | .intA, vint _ => true
  | .intA, _ => false
  | .strA, vstr _ => true
  | .strA, _ => false
  | .boolA, vbool _ => true
  | .boolA, _ => false
  | .noneA, vnone => true
  | .noneA, _ => false
  | .anyA, _ => true
  | .enumA e, venum en mn => en == e.ename && e.members.any (fun m => m.1 == mn)
  | .enumA _, _ => false
  | .listA t, vlist xs => xs.all (fun x => welltyped t x)
  | .listA _, _ => false
  | .tupleVarA t, vtuple xs => xs.all (fun x => welltyped t x)
  | .tupleVarA _, _ => false
  | .tupleA ts, vtuple xs => welltypedZip ts xs
  | .tupleA _, _ => false
  | .dictA kt vt, vdict ps =>
    ps.all (fun p => welltyped kt p.1 && welltyped vt p.2) && decide ((ps.map Prod.fst).Nodup)
  | .dictA _ _, _ => false
  | .unionA ts, v => welltypedAny ts v
  | .dataA cname fs, vinst cn fvals => cn == cname && fieldsMatch fs fvals
  | .dataA _ _, _ => false
termination_by structural a _ => a

/-- Membership in some branch of a union. -/
def welltypedAny : List Ann → Value → Bool
  | [], _ => false
  | t :: ts, v => welltyped t v || welltypedAny ts v
termination_by structural ts _ => ts

/-- Pointwise typing of a fixed-arity tuple (lengths must agree). -/
def welltypedZip : List Ann → List Value → Bool
  | [], [] => true
  | t :: ts, x :: xs => welltyped t x && welltypedZip ts xs
  | _, _ => false
termination_by structural ts _ => ts

/-- The attribute map of an instance lists exactly the declared fields, in
declaration order, each value an instance of the declared annotation. -/
def fieldsMatch : List FieldSpec → List (String × Value) → Bool
  | [], [] => true
  | (n, t, _, _) :: fs, (n2, v) :: fvals => n == n2 && welltyped t v && fieldsMatch fs fvals
  | _, _ => false
termination_by structural fs _ => fs

end

mutual

/-- The annotation lies in the fragment on which the amended round-trip law
is proved. -/
def wellformed : Ann → Bool
  | .intA => true
  | .strA => true
  | .boolA => true
  | .noneA => false
  | .anyA => false
  | .enumA e => e.members.all (fun m => decide (m.2 = vstr m.1))
  | .listA t => wellformed t
  | .tupleA ts => !ts.isEmpty && allWellformed ts
  | .tupleVarA t => wellformed t
  | .dictA kt vt => scalarKeyAnn kt && wellformed kt && wellformed vt
  | .unionA [t, .noneA] => wellformed t
  | .unionA _ => false
  | .dataA _ fs => wellformedFields fs && decide ((fs.map (fun f => f.1)).Nodup)
termination_by structural a => a

def allWellformed : List Ann → Bool
  | [] => true
  | t :: ts => wellformed t && allWellformed ts
termination_by structural ts => ts

def wellformedFields : List FieldSpec → Bool
  | [] => true
  | (_, t, _, _) :: fs => wellformed t && wellformedFields fs
termination_by structural fs => fs

end

/-! ## Round-trip lemmas -/

theorem encode_eq_vnone_iff (v : Value) : encode v = vnone ↔ v = vnone := by
  cases v with
  | vdict xs =>
    simp only [encode]
    split <;> simp
  | vnone => simp [encode]
  | vint n => simp [encode]
  | vstr s => simp [encode]
  | vbool b => simp [encode]
  | vlist xs => simp [encode]
  | vtuple xs => simp [encode]
  | venum e m => simp [encode]
  | vinst c fs => simp [encode]

theorem exceptMapList_roundtrip (f : Value → Except DErr Value) (xs : List Value)
    (h : ∀ x ∈ xs, f (encode x) = .ok x) : exceptMapList f (encodeItems xs) = .ok xs := by
  induction xs with
  | nil => simp [encodeItems, exceptMapList]
  | cons x xs ih =>
    simp only [encodeItems, exceptMapList, h x (by simp)]
    rw [ih (fun y hy => h y (by simp [hy]))]
    rfl

theorem exceptMapPairs_roundtrip (fk fv : Value → Except DErr Value)
    (ps : List (Value × Value))
    (h : ∀ p ∈ ps, fk (encode p.1) = .ok p.1 ∧ fv (encode p.2) = .ok p.2) :
    exceptMapPairs fk fv (encodePairs ps) = .ok ps := by
  induction ps with
  | nil => simp [encodePairs, exceptMapPairs]
  | cons p ps ih =>
    obtain ⟨k, v⟩ := p
    have hp := h (k, v) (by simp)
    simp only [encodePairs, exceptMapPairs, hp.1, hp.2]
    rw [ih (fun q hq => h q (by simp [hq]))]
    rfl

theorem pyDictSetItem_append (acc : List (Value × Value)) (k v : Value)
    (hk : k ∉ acc.map Prod.fst) : pyDictSetItem acc k v = acc ++ [(k, v)] := by
  induction acc with
  | nil => rfl
  | cons p acc ih =>
    obtain ⟨p1, p2⟩ := p
    simp only [List.map_cons, List.mem_cons, not_or] at hk
    have hne : ¬ (p1 = k) := fun h2 => hk.1 h2.symm
    simp only [pyDictSetItem, if_neg hne, List.cons_append]
    rw [ih hk.2]

theorem buildPyDict_aux (ps acc : List (Value × Value))
    (hnd : (acc.map Prod.fst ++ ps.map Prod.fst).Nodup) :
    ps.foldl (fun acc p => pyDictSetItem acc p.1 p.2) acc = acc ++ ps := by
  induction ps generalizing acc with
  | nil => simp
  | cons p ps ih =>
    obtain ⟨k, v⟩ := p
    simp only [List.map_cons] at hnd
    have hnd2 := hnd
    rw [List.nodup_append] at hnd2
    have hk : k ∉ acc.map Prod.fst := fun hmem => hnd2.2.2 hmem (by simp)
    simp only [List.foldl_cons, pyDictSetItem_append acc k v hk]
    rw [ih (acc ++ [(k, v)]) (by simpa using hnd)]
    simp

theorem buildPyDict_nodup (ps : List (Value × Value))
    (hnd : (ps.map Prod.fst).Nodup) : buildPyDict ps = ps := by
  have := buildPyDict_aux ps [] (by simpa using hnd)
  simpa [buildPyDict] using this

theorem enum_find_of_named (members : List (String × Value)) (mn : String)
    (hvals : ∀ m ∈ members, m.2 = vstr m.1)
    (hmem : ∃ m ∈ members, m.1 = mn) :
    members.find? (fun m => decide (m.2 = vstr mn)) = some (mn, vstr mn) := by
  induction members with
  | nil => simp at hmem
  | cons m members ih =>
    obtain ⟨n, val⟩ := m
    have hval : val = vstr n := hvals (n, val) (by simp)
    subst hval
    by_cases hn : n = mn
    · subst hn
      simp [List.find?]
    · have hmem2 : ∃ m ∈ members, m.1 = mn := by
        rcases hmem with ⟨m, hm, hmn⟩
        rcases List.mem_cons.mp hm with h | h
        · exact absurd (by rw [h] at hmn; exact hmn) hn
        · exact ⟨m, h, hmn⟩
      simpa [List.find?, vstr.injEq, hn] using
        ih (fun m hm => hvals m (by simp [hm])) hmem2

theorem isHashable_encode_of_scalarKey (kt : Ann) (k : Value)
    (hs : scalarKeyAnn kt = true) (hw : welltyped kt k = true) :
    isHashable (encode k) = true := by
  cases kt <;> simp [scalarKeyAnn] at hs <;> cases k <;>
    simp_all [welltyped, encode, isHashable]

theorem welltypedZip_length (ts : List Ann) (xs : List Value)
    (h : welltypedZip ts xs = true) : ts.length = xs.length := by
  induction ts generalizing xs with
  | nil => cases xs with
    | nil => rfl
    | cons x xs => simp [welltypedZip] at h
  | cons t ts ih =>
    cases xs with
    | nil => simp [welltypedZip] at h
    | cons x xs =>
      simp only [welltypedZip, Bool.and_eq_true] at h
      simp [ih xs h.2]

theorem encodeItems_length (xs : List Value) : (encodeItems xs).length = xs.length := by
  induction xs with
  | nil => rfl
  | cons x xs ih => simp [encodeItems, ih]

theorem lookupStr_append_of_not_mem (pre rest : List (String × Value)) (n : String)
    (h : n ∉ pre.map Prod.fst) : lookupStr (pre ++ rest) n = lookupStr rest n := by
  induction pre with
  | nil => rfl
  | cons p pre ih =>
    obtain ⟨k, v⟩ := p
    simp only [List.map_cons, List.mem_cons, not_or] at h
    have hne : ¬ (k = n) := fun hkn => h.1 hkn.symm
    simp only [List.cons_append, lookupStr, if_neg hne]
    exact ih h.2

/-- The split of decoded field values into constructor arguments and
post-construction `setattr` assignments, by declaration position. -/
def splitInitArgs : List FieldSpec → List (String × Value) →
    List (String × Value) × List (String × Value)
  | [], _ => ([], [])
  | _, [] => ([], [])
  | (_, _, _, finit) :: fs, (n2, v) :: fvals =>
    let (ia, na) := splitInitArgs fs fvals
    if finit then ((n2, v) :: ia, na) else (ia, (n2, v) :: na)

theorem constructFields_aligned (cname : String) (iaPre naPre : List (String × Value))
    (fs : List FieldSpec) (fvals : List (String × Value))
    (hm : fieldsMatch fs fvals = true)
    (hnd : (fs.map (fun f => f.1)).Nodup)
    (hpre1 : ∀ f ∈ fs, f.1 ∉ iaPre.map Prod.fst)
    (hpre2 : ∀ f ∈ fs, f.1 ∉ naPre.map Prod.fst) :
    constructFields cname (iaPre ++ (splitInitArgs fs fvals).1)
      (naPre ++ (splitInitArgs fs fvals).2) fs = .ok fvals := by
  induction fs generalizing iaPre naPre fvals with
  | nil =>
    cases fvals with
    | nil => simp [splitInitArgs, constructFields]
    | cons p fvals => simp [fieldsMatch] at hm
  | cons f fs ih =>
    obtain ⟨n, t, d, finit⟩ := f
    cases fvals with
    | nil => simp [fieldsMatch] at hm
    | cons p fvals =>
      obtain ⟨n2, v⟩ := p
      simp only [fieldsMatch, Bool.and_eq_true, beq_iff_eq] at hm
      obtain ⟨⟨hn, hwtv⟩, hm'⟩ := hm
      subst hn
      simp only [List.map_cons, List.nodup_cons] at hnd
      have htail1 : ∀ f ∈ fs, f.1 ∉ iaPre.map Prod.fst :=
        fun f hf => hpre1 f (by simp [hf])
      have htail2 : ∀ f ∈ fs, f.1 ∉ naPre.map Prod.fst :=
        fun f hf => hpre2 f (by simp [hf])
      have hne1 : ∀ f ∈ fs, f.1 ≠ n := by
        intro f hf he
        exact hnd.1 (he ▸ List.mem_map_of_mem (fun g => g.1) hf)
      cases finit with
      | true =>
        have hia : (splitInitArgs ((n, t, d, true) :: fs) ((n, v) :: fvals)).1 =
            (n, v) :: (splitInitArgs fs fvals).1 := by simp [splitInitArgs]
        have hna : (splitInitArgs ((n, t, d, true) :: fs) ((n, v) :: fvals)).2 =
            (splitInitArgs fs fvals).2 := by simp [splitInitArgs]
        rw [hia, hna]
        have hlk : lookupStr (iaPre ++ (n, v) :: (splitInitArgs fs fvals).1) n = some v := by
          rw [lookupStr_append_of_not_mem _ _ _ (hpre1 (n, t, d, true) (by simp))]
          simp [lookupStr]
        have hrec := ih (iaPre ++ [(n, v)]) naPre fvals hm' hnd.2
          (fun f hf => by
            simp only [List.map_append, List.mem_append, List.map_cons, List.map_nil,
              List.mem_singleton, not_or]
            exact ⟨htail1 f hf, by simpa using hne1 f hf⟩)
          htail2
        rw [show (iaPre ++ [(n, v)]) ++ (splitInitArgs fs fvals).1 =
            iaPre ++ (n, v) :: (splitInitArgs fs fvals).1 by simp] at hrec
        simp [constructFields, hlk, hrec]
      | false =>
        have hia : (splitInitArgs ((n, t, d, false) :: fs) ((n, v) :: fvals)).1 =
            (splitInitArgs fs fvals).1 := by simp [splitInitArgs]
        have hna : (splitInitArgs ((n, t, d, false) :: fs) ((n, v) :: fvals)).2 =
            (n, v) :: (splitInitArgs fs fvals).2 := by simp [splitInitArgs]
        rw [hia, hna]
        have hlk : lookupStr (naPre ++ (n, v) :: (splitInitArgs fs fvals).2) n = some v := by
          rw [lookupStr_append_of_not_mem _ _ _ (hpre2 (n, t, d, false) (by simp))]
          simp [lookupStr]
        have hrec := ih iaPre (naPre ++ [(n, v)]) fvals hm' hnd.2
          htail1
          (fun f hf => by
            simp only [List.map_append, List.mem_append, List.map_cons, List.map_nil,
              List.mem_singleton, not_or]
            exact ⟨htail2 f hf, by simpa using hne1 f hf⟩)
        rw [show (naPre ++ [(n, v)]) ++ (splitInitArgs fs fvals).2 =
            naPre ++ (n, v) :: (splitInitArgs fs fvals).2 by simp] at hrec
        simp [constructFields, hlk, hrec]

theorem wellformed_isNoneAnn_false (t : Ann) (h : wellformed t = true) :
    isNoneAnn t = false := by
  cases t <;> simp_all [wellformed, isNoneAnn]

theorem encodePairs_map_fst (ps : List (Value × Value)) :
    (encodePairs ps).map Prod.fst = ps.map (fun p => encode p.1) := by
  induction ps with
  | nil => rfl
  | cons p ps ih =>
    obtain ⟨k, v⟩ := p
    simp [encodePairs, ih]

theorem encode_scalar_inj (kt : Ann) (hs : scalarKeyAnn kt = true) :
    ∀ k1 k2 : Value, welltyped kt k1 = true → welltyped kt k2 = true →
      encode k1 = encode k2 → k1 = k2 := by
  intro k1 k2 h1 h2 he
  cases kt <;> simp [scalarKeyAnn] at hs <;>
    cases k1 <;> simp [welltyped] at h1 <;>
    cases k2 <;> simp [welltyped] at h2 <;>
    simp_all [encode]

mutual

/-- The heart of the round-trip law on the `wellformed` fragment: decoding
the encoding of a well-typed value gives the value back. -/
theorem decode_encode_id (a : Ann) (v : Value)
    (hwf : wellformed a = true) (hwt : welltyped a v = true) :
    decode a (encode v) = .ok v := by
  cases a with
  | intA =>
    cases v <;> simp [welltyped] at hwt
    simp [encode, decode, pyIntCoerce]
  | strA =>
    cases v <;> simp [welltyped] at hwt
    simp [encode, decode, pyStr]
  | boolA =>
    cases v <;> simp [welltyped] at hwt
    simp [encode, decode, pyTruthy]
  | noneA => simp [wellformed] at hwf
  | anyA => simp [wellformed] at hwf
  | enumA e =>
    cases v <;> simp [welltyped] at hwt
    rename_i en mn
    obtain ⟨hen, hmem⟩ := hwt
    subst hen
    simp only [wellformed, List.all_eq_true, decide_eq_true_eq] at hwf
    have hmem2 : ∃ m ∈ e.members, m.1 = mn := by
      rcases hmem with ⟨x, hx⟩
      exact ⟨(mn, x), hx, rfl⟩
    simp [encode, decode, enum_find_of_named e.members mn hwf hmem2]
  | listA t =>
    cases v <;> simp [welltyped] at hwt
    rename_i xs
    simp only [encode, decode]
    rw [exceptMapList_roundtrip _ xs (fun x hx => decode_encode_id t x
      (by simpa [wellformed] using hwf) (hwt x hx))]
    rfl
  | tupleVarA t =>
    cases v <;> simp [welltyped] at hwt
    rename_i xs
    simp only [encode, decode]
    rw [exceptMapList_roundtrip _ xs (fun x hx => decode_encode_id t x
      (by simpa [wellformed] using hwf) (hwt x hx))]
    rfl
  | tupleA ts =>
    cases v with
    | vtuple xs =>
      simp only [welltyped] at hwt
      simp only [wellformed, Bool.and_eq_true] at hwf
      have hlen : ts.length = (encodeItems xs).length := by
        rw [encodeItems_length]
        exact welltypedZip_length ts xs hwt
      cases ts with
      | nil => simp at hwf
      | cons t ts =>
        simp only [encode, decode, if_pos hlen]
        rw [decodeTupleZip_encode (t :: ts) xs hwf.2 hwt]
        rfl
    | vnone => simp [welltyped] at hwt
    | vint n => simp [welltyped] at hwt
    | vstr s => simp [welltyped] at hwt
    | vbool b => simp [welltyped] at hwt
    | vlist xs => simp [welltyped] at hwt
    | vdict ps => simp [welltyped] at hwt
    | venum en mn => simp [welltyped] at hwt
    | vinst cn fvs => simp [welltyped] at hwt
  | dictA kt vt =>
    cases v <;> simp [welltyped] at hwt
    rename_i ps
    obtain ⟨hpt, hnd⟩ := hwt
    simp only [wellformed, Bool.and_eq_true] at hwf
    obtain ⟨⟨hsk, hwfk⟩, hwfv⟩ := hwf
    have hk2 : ∀ x ∈ ps.map Prod.fst, welltyped kt x = true := by
      intro x hx
      obtain ⟨p, hp, rfl⟩ := List.mem_map.mp hx
      exact (hpt p.1 p.2 hp).1
    have hhash : ((encodePairs ps).all (fun p => isHashable p.1)) = true := by
      rw [List.all_eq_true]
      intro q hq
      have hq2 : q ∈ ps.map (fun p => (encode p.1, encode p.2)) := by
        clear hpt hnd hk2
        induction ps with
        | nil => simp [encodePairs] at hq
        | cons p ps ih =>
          obtain ⟨k, w⟩ := p
          simp only [encodePairs, List.mem_cons] at hq
          rcases hq with h | h
          · simp [h]
          · simp [ih h]
      obtain ⟨p, hp, hpe⟩ := List.mem_map.mp hq2
      rw [← hpe]
      exact isHashable_encode_of_scalarKey kt p.1 hsk (hpt p.1 p.2 hp).1
    have hendup : ((encodePairs ps).map Prod.fst).Nodup := by
      rw [encodePairs_map_fst]
      have hmm : ps.map (fun p => encode p.1) = (ps.map Prod.fst).map encode := by
        rw [List.map_map]
        rfl
      rw [hmm]
      exact hnd.map_on
        (fun x hx y hy he => encode_scalar_inj kt hsk x y (hk2 x hx) (hk2 y hy) he)
    have hev : encode (vdict ps) = vdict (encodePairs ps) := by
      simp only [encode]
      rw [if_pos hhash, buildPyDict_nodup _ hendup]
    rw [hev]
    simp only [decode]
    rw [exceptMapPairs_roundtrip _ _ ps (fun p hp =>
      ⟨decode_encode_id kt p.1 hwfk (hpt p.1 p.2 hp).1,
       decode_encode_id vt p.2 hwfv (hpt p.1 p.2 hp).2⟩)]
    simp [buildPyDict_nodup _ hnd]
  | unionA ts =>
    rcases ts with _ | ⟨t, ts⟩
    · simp [wellformed] at hwf
    rcases ts with _ | ⟨t2, ts⟩
    · simp [wellformed] at hwf
    rcases ts with _ | ⟨t3, ts⟩
    swap
    · cases t2 <;> simp [wellformed] at hwf
    cases t2 <;> simp [wellformed] at hwf
    have hnone : isNoneAnn t = false := wellformed_isNoneAnn_false t hwf
    have hany : ([t, Ann.noneA].any isNoneAnn) = true := by simp [isNoneAnn]
    by_cases hv : v = vnone
    · subst hv
      simp [decode, decodeUnionGo, hany, hnone, encode]
    · have hwtv : welltyped t v = true := by
        simp only [welltyped, welltypedAny, Bool.or_eq_true] at hwt
        rcases hwt with h | h | h
        · exact h
        · have hvn : v = vnone := by
            cases v <;> simp [welltyped] at h
          exact absurd hvn hv
        · exact absurd h (by simp)
      have hev : ¬ (encode v = vnone) := fun h => hv ((encode_eq_vnone_iff v).mp h)
      simp [decode, decodeUnionGo, hany, hnone, hev,
        decode_encode_id t v hwf hwtv]
  | dataA cname fs =>
    cases v <;> simp [welltyped] at hwt
    rename_i cn fvals
    obtain ⟨hcn, hm⟩ := hwt
    subst hcn
    simp only [wellformed, Bool.and_eq_true, decide_eq_true_eq] at hwf
    obtain ⟨hwff, hnd⟩ := hwf
    have henc : encode (vinst cn fvals) = vdict (encodeFields fvals) := by
      simp [encode]
    rw [henc]
    simp only [decode]
    rw [decodeDataFields_encode fs fvals hwff hm]
    have hcf := constructFields_aligned cn [] [] fs fvals hm hnd
      (by simp) (by simp)
    simp only [List.nil_append] at hcf
    simp [constructInstance, hcf]

theorem decodeTupleZip_encode (ts : List Ann) (xs : List Value)
    (hwf : allWellformed ts = true) (hwt : welltypedZip ts xs = true) :
    decodeTupleZip ts (encodeItems xs) = .ok xs := by
  cases ts with
  | nil =>
    cases xs with
    | nil => simp [encodeItems, decodeTupleZip]
    | cons x xs => simp [welltypedZip] at hwt
  | cons t ts =>
    cases xs with
    | nil => simp [welltypedZip] at hwt
    | cons x xs =>
      simp only [welltypedZip, Bool.and_eq_true] at hwt
      simp only [allWellformed, Bool.and_eq_true] at hwf
      simp only [encodeItems, decodeTupleZip]
      rw [decode_encode_id t x hwf.1 hwt.1, decodeTupleZip_encode ts xs hwf.2 hwt.2]
      rfl

theorem decodeDataFields_encode (fs : List FieldSpec)
    (fvals : List (String × Value))
    (hwf : wellformedFields fs = true) (hm : fieldsMatch fs fvals = true) :
    decodeDataFields fs (encodeFields fvals) =
      .ok ((splitInitArgs fs fvals).1, (splitInitArgs fs fvals).2, []) := by
  cases fs with
  | nil =>
    cases fvals with
    | nil => simp [encodeFields, decodeDataFields, splitInitArgs]
    | cons p fvals => simp [fieldsMatch] at hm
  | cons f fs =>
    obtain ⟨n, t, d, finit⟩ := f
    cases fvals with
    | nil => simp [fieldsMatch] at hm
    | cons p fvals =>
      obtain ⟨n2, v⟩ := p
      simp only [fieldsMatch, Bool.and_eq_true, beq_iff_eq] at hm
      obtain ⟨⟨hn, hwtv⟩, hm2⟩ := hm
      subst hn
      simp only [wellformedFields, Bool.and_eq_true] at hwf
      cases finit with
      | true =>
        simp [encodeFields, decodeDataFields, popKey,
          decode_encode_id t v hwf.1 hwtv,
          decodeDataFields_encode fs fvals hwf.2 hm2, splitInitArgs]
      | false =>
        simp [encodeFields, decodeDataFields, popKey,
          decode_encode_id t v hwf.1 hwtv,
          decodeDataFields_encode fs fvals hwf.2 hm2, splitInitArgs]

end

/-! ## Decoder registry and memoization state

Claim C2 is about the interaction of `decode.register` with the
`functools.lru_cache` memoization of `get_decoding_fn`, which is process
state.  It is modelled here with explicit state passing; the resolved
decoding function is represented as data so that staleness is observable. -/

/-- A generic first-match lookup in a string-keyed table. -/
def lookupKey {α : Type} : List (String × α) → String → Option α
  | [], _ => none
  | (k, v) :: rest, n => if k = n then some v else lookupKey rest n

/-- A resolved decoding function, as data: either the function found in the
`decode.registry` table (identified by the numeric id it was registered
under), or the decoder that `get_decoding_fn` derives from the structure of
the annotation (dataclass walk, container walk, enum class, ...). -/
inductive ResolvedFn where
  | fromRegistry (id : Nat)
  | derived (tname : String)
  deriving DecidableEq

/-- The process-wide mutable state of the decode engine: the singledispatch
registry written by `decode.register`, and the `lru_cache` memo table of
`get_decoding_fn`, keyed by the type annotation. -/
structure DecodeState where
  registry : List (String × Nat)
  cache : List (String × ResolvedFn)
  deriving DecidableEq

/-- The body of `get_decoding_fn` without its cache: the registry is
consulted first (`if t in decode.registry: return decode.dispatch(t)`),
otherwise the decoder is derived from the annotation's structure. -/
def resolveDecodingFn (registry : List (String × Nat)) (t : String) : ResolvedFn :=
  match lookupKey registry t with
  | some fid => .fromRegistry fid
  | none => .derived t

/-- `get_decoding_fn` as it executes under `@lru_cache`: a memoized entry is
returned without running the body; on a miss the body runs and its result is
memoized. -/
def getDecodingFn (st : DecodeState) (t : String) : ResolvedFn × DecodeState :=
  match lookupKey st.cache t with
  | some f => (f, st)
  | none =>
    let f := resolveDecodingFn st.registry t
    (f, { st with cache := st.cache ++ [(t, f)] })

/-- `decode.register(t, f)`: updates the singledispatch registry so that a
fresh resolution of `t` dispatches to `f`.  The memo table of
`get_decoding_fn` is left untouched — nothing in decoding.py clears it on
registration. -/
def registerDecodingFn (st : DecodeState) (t : String) (fid : Nat) : DecodeState :=
  { st with registry := (t, fid) :: st.registry }

/-- The registry as decoding.py builds it at import time:
`decode.register(t, t)` for `str`, `float`, `int`, `bool`, `bytes`, plus
`decode.register(Path, Path)`; the `lru_cache` starts empty. -/
def initialDecodeState : DecodeState :=
  { registry := [("str", 0), ("float", 1), ("int", 2), ("bool", 3), ("bytes", 4), ("Path", 5)],
    cache := [] }

/-! ## Scoped config-format override -/

/-- The closed set of config formats (`ConfigType` in options.py). -/
inductive ConfigFormat where
  | yaml
  | json
  | toml
  deriving DecidableEq

/-- `Options.get_config_type`: reads the process-wide selector. -/
def getConfigType (s : ConfigFormat) : ConfigFormat := s

/-- `Options.set_config_type`: replaces the process-wide selector. -/
def setConfigType (n : ConfigFormat) (_ : ConfigFormat) : ConfigFormat := n

/-- Python `try/finally`: run the body, then always run the finalizer on
whatever state the body left behind, and propagate the body's outcome
(normal return or exception). -/
def tryFinallyState {α ε σ : Type} (body : σ → Except ε α × σ) (fin : σ → σ)
    (s : σ) : Except ε α × σ :=
  let r := body s
  (r.1, fin r.2)

/-- The `config_type` context manager (options.py): read the current
selector, set the new one inside the `try`, run the inner operation, and
restore the saved selector in the `finally` block — whether the inner
operation returned or raised. -/
def configTypeScoped {α ε : Type} (newType : ConfigFormat)
    (inner : ConfigFormat → Except ε α × ConfigFormat) (s : ConfigFormat) :
    Except ε α × ConfigFormat :=
  let current := getConfigType s
  tryFinallyState (fun st => inner (setConfigType newType st))
    (fun st => setConfigType current st) s

/-! ## Source merging

`ArgumentParser._postprocessing` (argparsing.py) flattens the file-sourced
nested mapping with `utils.flatten` and then overrides it key-by-key with
the CLI mapping via `dict.update`.  The generalisation to an ordered list of
file sources merged left-to-right before the CLI mapping is applied last is
specified in spec §4.5 but its implementation (`pyrallis.parse` with a list
of config paths) is not among the files under src/; `mergeSources` below is
modelled from the spec for that part, keeping `dict.update` as the
per-source merge step exactly as `_postprocessing` uses it. -/

/-- A nested configuration document: string-keyed mappings down to leaf
values (what a parsed YAML/JSON/TOML config file contains). -/
inductive ConfigVal where
  | leaf (v : Value)
  | node (entries : List (String × ConfigVal))

/-- Key extension of `utils.flatten`: `parent_key + sep + k if parent_key
else k` with the default separator. -/
def flattenKey (parent : Option String) (k : String) : String :=
  match parent with
  | some p => p ++ "." ++ k
  | none => k

mutual

/-- `utils.flatten`: a nested mapping becomes a flat mapping from dotted
keys to the leaf values, in traversal order. -/
def flatten (parent : Option String) : List (String × ConfigVal) → List (String × Value)
  | [] => []
  | (k, cv) :: rest => flattenEntry parent k cv ++ flatten parent rest
termination_by structural entries => entries

def flattenEntry (parent : Option String) (k : String) : ConfigVal → List (String × Value)
  | .leaf v => [(flattenKey parent k, v)]
  | .node entries => flatten (some (flattenKey parent k)) entries
termination_by structural cv => cv

end

/-- Python `d[k] = v` on a string-keyed dict: an existing key keeps its
position and gets the new value, a new key is appended. -/
def setKeyStr : List (String × Value) → String → Value → List (String × Value)
  | [], k, v => [(k, v)]
  | (k2, v2) :: rest, k, v =>
    if k2 = k then (k2, v) :: rest else (k2, v2) :: setKeyStr rest k v

/-- Python `d.update(e)`: one `d[k] = v` per entry of `e`, in order (the
`yaml_args.update(parsed_arg_values)` step of `_postprocessing`). -/
def pyUpdateStr (d e : List (String × Value)) : List (String × Value) :=
  e.foldl (fun acc p => setKeyStr acc p.1 p.2) d

/-- Modelled from the spec: the Source Merger of spec §4.5 over already
flattened sources — fold `dict.update` over the file sources left to right,
then apply the CLI mapping last.  The multi-file-source loop itself is not
under src/ (only `_postprocessing`'s single-source case is); the update
semantics are taken from `_postprocessing`. -/
def mergeSources (sources : List (List (String × Value)))
    (cli : List (String × Value)) : List (String × Value) :=
  pyUpdateStr (sources.foldl (fun acc s => pyUpdateStr acc s) []) cli

/-- The value the spec's precedence law assigns to a key from file sources
alone: the value in the *last* source that contains the key. -/
def specLastLookup : List (List (String × Value)) → String → Option Value
  | [], _ => none
  | s :: rest, k =>
    match specLastLookup rest k with
    | some v => some v
    | none => lookupStr s k

theorem lookupStr_setKeyStr (d : List (String × Value)) (k n : String) (v : Value) :
    lookupStr (setKeyStr d k v) n = if n = k then some v else lookupStr d n := by
  induction d with
  | nil =>
    simp only [setKeyStr, lookupStr]
    by_cases h : k = n
    · subst h
      simp
    · rw [if_neg h, if_neg (fun he : n = k => h he.symm)]
  | cons p d ih =>
    obtain ⟨k2, v2⟩ := p
    simp only [setKeyStr]
    by_cases h2 : k2 = k
    · subst h2
      simp only [if_pos rfl, lookupStr]
      by_cases h : k2 = n
      · subst h
        simp
      · rw [if_neg h, if_neg (fun he : n = k2 => h he.symm), if_neg h]
    · rw [if_neg h2]
      simp only [lookupStr]
      by_cases h : k2 = n
      · subst h
        rw [if_pos rfl, if_neg (fun he : k2 = k => h2 he), if_pos rfl]
      · rw [if_neg h, ih]
        by_cases hnk : n = k
        · simp [hnk]
        · rw [if_neg hnk, if_neg hnk, if_neg h]

theorem lookupStr_eq_none_of_not_mem (e : List (String × Value)) (n : String)
    (h : n ∉ e.map Prod.fst) : lookupStr e n = none := by
  induction e with
  | nil => rfl
  | cons p e ih =>
    obtain ⟨k, v⟩ := p
    simp only [List.map_cons, List.mem_cons, not_or] at h
    have hne : ¬ (k = n) := fun he => h.1 he.symm
    simp [lookupStr, if_neg hne, ih h.2]

theorem lookupStr_pyUpdateStr (d e : List (String × Value)) (n : String)
    (hnd : (e.map Prod.fst).Nodup) :
    lookupStr (pyUpdateStr d e) n =
      match lookupStr e n with
      | some v => some v
      | none => lookupStr d n := by
  induction e generalizing d with
  | nil => simp [pyUpdateStr, lookupStr]
  | cons p e ih =>
    obtain ⟨k, v⟩ := p
    simp only [List.map_cons, List.nodup_cons] at hnd
    have step : pyUpdateStr d ((k, v) :: e) = pyUpdateStr (setKeyStr d k v) e := rfl
    rw [step, ih (setKeyStr d k v) hnd.2]
    by_cases h : n = k
    · subst h
      rw [lookupStr_eq_none_of_not_mem e n hnd.1]
      simp [lookupStr, lookupStr_setKeyStr]
    · have hne : ¬ (k = n) := fun he => h he.symm
      simp only [lookupStr, if_neg hne]
      cases lookupStr e n <;> simp [lookupStr_setKeyStr, h]

theorem lookupStr_mergeFold (sources : List (List (String × Value)))
    (acc : List (String × Value)) (n : String)
    (hnd : ∀ s ∈ sources, (s.map Prod.fst).Nodup) :
    lookupStr (sources.foldl (fun acc s => pyUpdateStr acc s) acc) n =
      match specLastLookup sources n with
      | some v => some v
      | none => lookupStr acc n := by
  induction sources generalizing acc with
  | nil => simp [specLastLookup]
  | cons s sources ih =>
    simp only [List.foldl_cons, specLastLookup]
    rw [ih (pyUpdateStr acc s) (fun s2 hs => hnd s2 (by simp [hs]))]
    cases hs : specLastLookup sources n with
    | some v => simp
    | none =>
      simp only
      rw [lookupStr_pyUpdateStr acc s n (hnd s (by simp))]

theorem specLastLookup_none_of_all_none (l : List (List (String × Value))) (k : String)
    (h : ∀ s ∈ l, lookupStr s k = none) : specLastLookup l k = none := by
  induction l with
  | nil => rfl
  | cons s l ih =>
    simp only [specLastLookup, ih (fun s2 hs => h s2 (by simp [hs])), h s (by simp)]

theorem specLastLookup_last_wins (pre post : List (List (String × Value)))
    (s : List (String × Value)) (k : String) (v : Value)
    (hs : lookupStr s k = some v) (hpost : ∀ s2 ∈ post, lookupStr s2 k = none) :
    specLastLookup (pre ++ s :: post) k = some v := by
  induction pre with
  | nil =>
    simp only [List.nil_append, specLastLookup,
      specLastLookup_none_of_all_none post k hpost, hs]
  | cons p pre ih =>
    show (match specLastLookup (pre ++ s :: post) k with
      | some v => some v
      | none => lookupStr p k) = some v
    rw [ih]

/-! ## Support lemmas for the unconsumed-key property -/

theorem popKey_mem_rest (pairs : List (Value × Value)) (n : String) (k w r : Value)
    (rest : List (Value × Value)) (hpop : popKey pairs n = some (r, rest))
    (hmem : (k, w) ∈ pairs) (hne : k ≠ vstr n) : (k, w) ∈ rest := by
  induction pairs generalizing r rest with
  | nil => simp [popKey] at hpop
  | cons p pairs ih =>
    obtain ⟨k0, v0⟩ := p
    by_cases h0 : k0 = vstr n
    · subst h0
      have hpp : popKey ((vstr n, v0) :: pairs) n = some (v0, pairs) := by
        simp [popKey]
      rw [hpp, Option.some.injEq, Prod.mk.injEq] at hpop
      rcases List.mem_cons.mp hmem with h | h
      · exact absurd (congrArg Prod.fst h) hne
      · rw [← hpop.2]
        exact h
    · simp only [popKey, if_neg h0] at hpop
      cases hrec : popKey pairs n with
      | none =>
        rw [hrec] at hpop
        simp at hpop
      | some pr =>
        obtain ⟨r2, rest2⟩ := pr
        rw [hrec] at hpop
        simp only [Option.map_some, Option.some.injEq, Prod.mk.injEq] at hpop
        rw [← hpop.2]
        rcases List.mem_cons.mp hmem with h | h
        · rw [h]
          exact List.mem_cons_self _ _
        · exact List.mem_cons_of_mem _ (ih r2 rest2 hrec h)

theorem decodeDataFields_keeps (fs : List FieldSpec) (pairs : List (Value × Value))
    (k w : Value) (hmem : (k, w) ∈ pairs)
    (hmiss : ∀ f ∈ fs, k ≠ vstr f.1) :
    ∀ ia na rest, decodeDataFields fs pairs = .ok (ia, na, rest) → (k, w) ∈ rest := by
  induction fs generalizing pairs with
  | nil =>
    intro ia na rest h
    simp only [decodeDataFields, Except.ok.injEq, Prod.mk.injEq] at h
    rw [← h.2.2]
    exact hmem
  | cons f fs ih =>
    obtain ⟨n, t, d, finit⟩ := f
    intro ia na rest h
    simp only [decodeDataFields] at h
    split at h
    · exact ih pairs hmem (fun g hg => hmiss g (by simp [hg])) ia na rest h
    · rename_i raw rest1 hpop
      split at h
      · exact absurd h (by simp)
      · rename_i fv hdec
        split at h
        · exact absurd h (by simp)
        · rename_i triple ia2 na2 rem2 hrec
          have hmem1 : (k, w) ∈ rest1 :=
            popKey_mem_rest pairs n k w raw rest1 hpop hmem
              (hmiss (n, t, d, finit) (by simp))
          have hrem : rem2 = rest := by
            cases finit
            · simp only [Bool.false_eq_true, if_neg, ite_false,
                Except.ok.injEq, Prod.mk.injEq] at h
              exact h.2.2
            · simp only [ite_true, Except.ok.injEq, Prod.mk.injEq] at h
              exact h.2.2
          rw [← hrem]
          exact ih rest1 hmem1 (fun g hg => hmiss g (by simp [hg])) ia2 na2 rem2 hrec

/-! ## Support lemmas for union branch trials -/

/-- Successful decode results (`try_functions` suppresses the others). -/
def isOkResult : Except DErr Value → Bool
  | .ok _ => true
  | .error _ => false

theorem decodeUnionGo_eq_tryFunctions (opt : Bool) (ts : List Ann) (v : Value) :
    decodeUnionGo opt ts v =
      tryFunctions ((ts.filter (fun t => !isNoneAnn t)).map
        (fun t => if opt then decodeOptionalWith (decode t) else decode t)) v := by
  induction ts with
  | nil => rfl
  | cons t ts ih =>
    by_cases hn : isNoneAnn t = true
    · simp [decodeUnionGo, hn, List.filter_cons, ih]
    · have hb :
          (if opt && decide (v = vnone) then Except.ok vnone else decode t v) =
            (if opt then decodeOptionalWith (decode t) else decode t) v := by
        cases opt with
        | false => simp
        | true =>
          by_cases hv : v = vnone <;> simp [decodeOptionalWith, hv]
      rw [Bool.not_eq_true] at hn
      simp only [decodeUnionGo, hn, Bool.false_eq_true, if_neg, ite_false,
        List.filter_cons, Bool.not_false, if_pos, List.map_cons, tryFunctions, hb]
      cases (if opt then decodeOptionalWith (decode t) else decode t) v with
      | ok r => rfl
      | error e => exact ih

theorem tryFunctions_first_success (fns : List (Value → Except DErr Value)) (v : Value)
    (i : Nat) (h : i < fns.length)
    (hfail : ∀ j (hj : j < i), isOkResult (fns.get ⟨j, Nat.lt_trans hj h⟩ v) = false)
    (hok : isOkResult (fns.get ⟨i, h⟩ v) = true) :
    tryFunctions fns v = fns.get ⟨i, h⟩ v := by
  induction fns generalizing i with
  | nil => simp at h
  | cons f fns ih =>
    cases i with
    | zero =>
      simp only [List.get] at hok ⊢
      cases hf : f v with
      | ok r => simp [tryFunctions, hf]
      | error e =>
        rw [hf] at hok
        simp [isOkResult] at hok
    | succ i =>
      have h0 : isOkResult (f v) = false := by
        have := hfail 0 (Nat.succ_pos i)
        simpa [List.get] using this
      cases hf : f v with
      | ok r =>
        rw [hf] at h0
        simp [isOkResult] at h0
      | error e =>
        simp only [tryFunctions, hf, List.get]
        exact ih i (Nat.lt_of_succ_lt_succ h)
          (fun j hj => by simpa [List.get] using hfail (j + 1) (Nat.succ_lt_succ hj))
          (by simpa [List.get] using hok)

theorem tryFunctions_error_iff (fns : List (Value → Except DErr Value)) (v : Value) :
    tryFunctions fns v = .error (.noValidParsing v) ↔
      ∀ f ∈ fns, isOkResult (f v) = false := by
  induction fns with
  | nil => simp [tryFunctions]
  | cons f fns ih =>
    cases hf : f v with
    | ok r =>
      simp only [tryFunctions, hf]
      constructor
      · intro h
        exact absurd h (by simp)
      · intro h
        have := h f (by simp)
        rw [hf] at this
        simp [isOkResult] at this
    | error e =>
      simp only [tryFunctions, hf]
      rw [ih]
      constructor
      · intro h g hg
        rcases List.mem_cons.mp hg with h2 | h2
        · rw [h2, hf]
          rfl
        · exact h g h2
      · intro h g hg
        exact h g (by simp [hg])

theorem tryFunctions_error_shape (fns : List (Value → Except DErr Value)) (v : Value)
    (e : DErr) (h : tryFunctions fns v = .error e) : e = .noValidParsing v := by
  induction fns with
  | nil =>
    simp only [tryFunctions, Except.error.injEq] at h
    exact h.symm
  | cons f fns ih =>
    simp only [tryFunctions] at h
    cases hf : f v with
    | ok r =>
      rw [hf] at h
      exact absurd h (by simp)
    | error e2 =>
      rw [hf] at h
      exact ih h

theorem decode_optional_union (t : Ann) (ht : isNoneAnn t = false) (v : Value) :
    decode (.unionA [t, .noneA]) v =
      if v = vnone then .ok vnone
      else
        match decode t v with
        | .ok r => .ok r
        | .error _ => .error (.noValidParsing v) := by
  have hany : ([t, Ann.noneA].any isNoneAnn) = true := by
    simp [isNoneAnn]
  simp only [decode, hany]
  by_cases hv : v = vnone
  · subst hv
    simp [decodeUnionGo, ht]
  · simp only [decodeUnionGo, ht, Bool.false_eq_true, ite_false, Bool.true_and,
    decide_eq_true_eq, if_neg hv]
    cases hdec : decode t v with
    | ok r => simp
    | error e => simp [decodeUnionGo, isNoneAnn]

/-! ## The claims -/

/-- `SomeClass` with one field `u : Union[int, str]` — a schema using only
decodable annotations. -/
def unionFieldT : Ann := .dataA "SomeClass" [("u", .unionA [.intA, .strA], none, true)]

/-- The instance `SomeClass(u="5")`. -/
def unionFieldX : Value := vinst "SomeClass" [("u", vstr "5")]

/-- Claim C1 (corrected) — counterexample to the round-trip law as stated.
`unionFieldX = SomeClass(u="5")` is constructible from the schema
`unionFieldT` using only registered/decodable types and no custom (lossy or
otherwise) encoder is involved, yet `decode(type(x), encode(x))` returns
`SomeClass(u=5)` ≠ `x`: `encode` maps the field to the string `"5"`, and
`decode_union` tries the `int` branch first, whose decoder `int("5")`
succeeds, so the `str` branch is never consulted. -/
theorem c1_roundtrip_counterexample :
    welltyped unionFieldT unionFieldX = true ∧
    decode unionFieldT (encode unionFieldX) =
      .ok (vinst "SomeClass" [("u", vint 5)]) ∧
    vinst "SomeClass" [("u", vint 5)] ≠ unionFieldX := by decide

/-- Claim C1 (amended): for every record type whose schema lies in the
`wellformed` fragment — primitive scalars, enums whose member values equal
their member names, lists, fixed and variadic tuples, dicts with scalar
keys, `Optional[T]`, and nested records with duplicate-free field names;
multi-branch unions and `Any` excluded — and every instance `x`
constructible from that schema (`welltyped`),
`decode(type(x), encode(x)) == x`. -/
theorem c1_roundtrip (cname : String) (fs : List FieldSpec) (x : Value)
    (hwf : wellformed (.dataA cname fs) = true)
    (hwt : welltyped (.dataA cname fs) x = true) :
    decode (.dataA cname fs) (encode x) = .ok x :=
  decode_encode_id (.dataA cname fs) x hwf hwt

/-- The fields of the showcase schema `Parent`: an optional nested record, a
list, a fixed-arity tuple, an enum whose member values equal their names, a
dict, and a non-init str field. -/
def parentFields : List FieldSpec :=
  [("child", .unionA [.dataA "Child" [("name", .strA, some (vstr "Kevin"), true)], .noneA],
     some vnone, true),
   ("nums", .listA .intA, none, true),
   ("pair", .tupleA [.intA, .strA], none, true),
   ("color", .enumA ⟨"Color", [("RED", vstr "RED"), ("BLUE", vstr "BLUE")]⟩, none, true),
   ("table", .dictA .strA .intA, none, true),
   ("tag", .strA, none, false)]

/-- A concrete `Parent` instance exercising every constructor of the
fragment. -/
def parentX : Value := vinst "Parent"
  [("child", vinst "Child" [("name", vstr "Dylan")]),
   ("nums", vlist [vint 1, vint 2]),
   ("pair", vtuple [vint 7, vstr "q"]),
   ("color", venum "Color" "BLUE"),
   ("table", vdict [(vstr "a", vint 1), (vstr "b", vint 2)]),
   ("tag", vstr "zz")]

/-- Witness for claim C1's amended round-trip law at the concrete nested
schema `Parent`. -/
theorem c1_roundtrip_witness :
    wellformed (.dataA "Parent" parentFields) = true ∧
    welltyped (.dataA "Parent" parentFields) parentX = true ∧
    decode (.dataA "Parent" parentFields) (encode parentX) = .ok parentX :=
  ⟨by decide, by decide, c1_roundtrip "Parent" parentFields parentX (by decide) (by decide)⟩

/-- Claim C2 (code_bug evaluation).  The claim demands that registering a
decoder for a type after that type's decoding function was already resolved
and memoized must take effect for subsequent decodes.  In the code,
`get_decoding_fn` is memoized with `functools.lru_cache` and
`decode.register` never clears that cache, so the stale entry keeps being
served.  Concretely: `int` is first resolved to the import-time registration
(id 2 in `initialDecodeState`) and memoized; a decoder with id 99 is then
registered for `int`; a fresh resolution of the registry would now dispatch
to 99, but `get_decoding_fn` still returns the stale function. -/
theorem c2_stale_cache_eval :
    (getDecodingFn initialDecodeState "int").1 = .fromRegistry 2 ∧
    (getDecodingFn (registerDecodingFn (getDecodingFn initialDecodeState "int").2
      "int" 99) "int").1 = .fromRegistry 2 ∧
    resolveDecodingFn (registerDecodingFn (getDecodingFn initialDecodeState "int").2
      "int" 99).registry "int" = .fromRegistry 99 := by decide

/-- The `Color` enum exactly as the tests declare it (tests/test_choice.py,
tests/test_decoding.py): members with `auto()` values `1` and `2`. -/
def colorAutoEnum : EnumDef := ⟨"Color", [("blue", vint 1), ("red", vint 2)]⟩

/-- Claim C3 (code_bug evaluation).  The claim (and spec §4.2 step 9, and
the tests) require decoding an enum raw string by member *name*.  The code
resolves an enum annotation to the enum class itself (`return t` in
`get_decoding_fn`), i.e. a call `Color(raw)`, which is Python's member
*value* lookup.  For the tests' `Color` with `auto()` values, `encode`
writes the member name `"red"`, and decoding that very string back raises
`ValueError` instead of producing `Color.red` — the code fails its own
dump/load round-trip test (`test_dump_load_enum`). -/
theorem c3_enum_decode_eval :
    encode (venum "Color" "red") = vstr "red" ∧
    decode (.enumA colorAutoEnum) (vstr "red") =
      .error (.enumValueError "Color" (vstr "red")) ∧
    decode (.enumA colorAutoEnum) (vstr "blue") =
      .error (.enumValueError "Color" (vstr "blue")) ∧
    decode (.enumA colorAutoEnum) (vint 2) = .ok (venum "Color" "red") := by decide

/-- `SomeClass` with one required field `a : int`. -/
def intFieldT : Ann := .dataA "SomeClass" [("a", .intA, none, true)]

/-- Claim C4 (code_bug evaluation).  The claim requires any exception raised
while decoding a record's field to be wrapped into the dedicated decode
error (`ParsingError`) naming the record type, field name, declared type,
raw value and cause.  In this code `decode_dataclass` calls `decode_field`
with no `try/except` at all, and `ParsingError` is never raised anywhere
under src/, so the underlying `ValueError` from `int("hello")` escapes
unwrapped, carrying none of that information. -/
theorem c4_unwrapped_field_error_eval :
    decode intFieldT (vdict [(vstr "a", vstr "hello")]) =
      .error (.intParseError (vstr "hello")) ∧
    (DErr.intParseError (vstr "hello")).isParsingError = false := by decide

/-- Claim C5 (confirmed).  If the raw mapping contains a pair whose key
matches no declared field of the record, then (1) decoding can never
succeed, and (2) whenever the per-field decoding loop itself finishes
without an error, the failure is precisely the leftover-fields error and it
names the offending pair among the unconsumed leftovers (`extra_args` in
`decode_dataclass`). -/
theorem c5_unconsumed_keys (cname : String) (fs : List FieldSpec)
    (pairs : List (Value × Value)) (k w : Value)
    (hmem : (k, w) ∈ pairs) (hmiss : ∀ f ∈ fs, k ≠ vstr f.1) :
    (∀ r, decode (.dataA cname fs) (vdict pairs) ≠ .ok r) ∧
    (∀ ia na rest, decodeDataFields fs pairs = .ok (ia, na, rest) →
      (k, w) ∈ rest ∧
      decode (.dataA cname fs) (vdict pairs) = .error (.extraFields rest)) := by
  constructor
  · intro r hr
    simp only [decode] at hr
    split at hr
    · exact absurd hr (by simp)
    · rename_i triple ia na rest hres
      have hkrest := decodeDataFields_keeps fs pairs k w hmem hmiss ia na rest hres
      have hne : rest.isEmpty = false := by
        cases rest
        · simp at hkrest
        · rfl
      rw [hne] at hr
      exact absurd hr (by simp)
  · intro ia na rest hres
    have hkrest := decodeDataFields_keeps fs pairs k w hmem hmiss ia na rest hres
    refine ⟨hkrest, ?_⟩
    have hne : rest.isEmpty = false := by
      cases rest
      · simp at hkrest
      · rfl
    simp [decode, hres, hne]

/-- Witness for claim C5 at a concrete record and mapping:
`SomeClass` has the single field `a`, and the raw mapping carries the
unknown key `"zulu"`, which ends up named in the leftover-fields error. -/
theorem c5_unconsumed_keys_witness :
    decode intFieldT (vdict [(vstr "a", vint 1), (vstr "zulu", vint 9)]) =
      .error (.extraFields [(vstr "zulu", vint 9)]) :=
  ((c5_unconsumed_keys "SomeClass" [("a", .intA, none, true)]
    [(vstr "a", vint 1), (vstr "zulu", vint 9)] (vstr "zulu") (vint 9)
    (by decide) (by decide)).2
    [("a", vint 1)] [] [(vstr "zulu", vint 9)] (by decide)).2

/-- Claim C6 (confirmed).  `decode_optional` returns `None` unchanged
without consulting the wrapped decoder (stated for an arbitrary wrapped
decoder `dec`, so no decoder can be invoked), and hands any non-`None`
value to the wrapped decoder; accordingly the resolved decoder of
`Optional[T]` maps `null` to the none value and delegates non-null raw
values to `T`'s decoder. -/
theorem c6_optional_passthrough (t : Ann) (dec : Value → Except DErr Value)
    (v : Value) (ht : isNoneAnn t = false) :
    decodeOptionalWith dec vnone = .ok vnone ∧
    (v ≠ vnone → decodeOptionalWith dec v = dec v) ∧
    decode (.unionA [t, .noneA]) vnone = .ok vnone ∧
    (v ≠ vnone →
      decode (.unionA [t, .noneA]) v =
        match decode t v with
        | .ok r => .ok r
        | .error _ => .error (.noValidParsing v)) := by
  refine ⟨by simp [decodeOptionalWith], fun hv => by simp [decodeOptionalWith, hv], ?_, ?_⟩
  · rw [decode_optional_union t ht vnone]
    simp
  · intro hv
    rw [decode_optional_union t ht v, if_neg hv]

/-- Witness for claim C6 at `T = int`, raw values `null` and `3`. -/
theorem c6_optional_passthrough_witness :
    decodeOptionalWith (decode .intA) vnone = .ok vnone ∧
    decodeOptionalWith (decode .intA) (vint 3) = decode .intA (vint 3) ∧
    decode (.unionA [.intA, .noneA]) vnone = .ok vnone :=
  ⟨(c6_optional_passthrough .intA (decode .intA) (vint 3) (by decide)).1,
   (c6_optional_passthrough .intA (decode .intA) (vint 3) (by decide)).2.1 (by decide),
   (c6_optional_passthrough .intA (decode .intA) (vint 3) (by decide)).2.2.1⟩

/-- Claim C7 (confirmed).  The union decoder is `try_functions` over the
branch decoders in declaration order (`None` members removed, the others
wrapped by `decode_optional` when the union was optional): a branch failure
is suppressed and the next branch tried; the first branch that succeeds
determines the result; the aggregate `TypeError` is raised exactly when
every branch fails, and it is the only error the union decoder can raise. -/
theorem c7_union_trial (ts : List Ann) (v : Value) :
    decode (.unionA ts) v = tryFunctions (unionBranchFns ts) v ∧
    (∀ i (h : i < (unionBranchFns ts).length),
      (∀ j (hj : j < i),
        isOkResult ((unionBranchFns ts).get ⟨j, Nat.lt_trans hj h⟩ v) = false) →
      isOkResult ((unionBranchFns ts).get ⟨i, h⟩ v) = true →
      tryFunctions (unionBranchFns ts) v = (unionBranchFns ts).get ⟨i, h⟩ v) ∧
    (tryFunctions (unionBranchFns ts) v = .error (.noValidParsing v) ↔
      ∀ f ∈ unionBranchFns ts, isOkResult (f v) = false) ∧
    (∀ e, tryFunctions (unionBranchFns ts) v = .error e → e = .noValidParsing v) := by
  refine ⟨?_, ?_, tryFunctions_error_iff _ v, fun e => tryFunctions_error_shape _ v e⟩
  · simp only [decode]
    rw [decodeUnionGo_eq_tryFunctions]
    rfl
  · intro i h hfail hok
    exact tryFunctions_first_success _ v i h hfail hok

/-- Witness for claim C7: on `Union[int, str]` with raw `"x"`, the decode
equals the branch trial, and on `Union[int]`-like branch lists where every
branch fails the aggregate failure is raised. -/
theorem c7_union_trial_witness :
    decode (.unionA [.intA, .strA]) (vstr "x") =
      tryFunctions (unionBranchFns [.intA, .strA]) (vstr "x") ∧
    tryFunctions (unionBranchFns [.intA]) (vstr "x") =
      .error (.noValidParsing (vstr "x")) :=
  ⟨(c7_union_trial [.intA, .strA] (vstr "x")).1,
   (c7_union_trial [.intA] (vstr "x")).2.2.1.mpr (by
     intro f hf
     simp [unionBranchFns, isNoneAnn, List.filter_cons] at hf
     rw [hf]
     decide)⟩

/-- Claim C8 (confirmed, merge modelled from spec §4.5 where it is not under
src/).  For flat sources with duplicate-free keys: a leaf key present in the
CLI mapping takes the CLI value in the merge; a key absent from the CLI
mapping takes the value of the last file source that contains it (in
particular a key present in exactly one source survives unchanged). -/
theorem c8_merge_precedence (sources : List (List (String × Value)))
    (cli : List (String × Value)) (k : String)
    (hndc : (cli.map Prod.fst).Nodup)
    (hnds : ∀ s ∈ sources, (s.map Prod.fst).Nodup) :
    (∀ v, lookupStr cli k = some v → lookupStr (mergeSources sources cli) k = some v) ∧
    (lookupStr cli k = none →
      lookupStr (mergeSources sources cli) k = specLastLookup sources k) ∧
    (∀ pre s post v, sources = pre ++ s :: post → lookupStr cli k = none →
      lookupStr s k = some v → (∀ s2 ∈ post, lookupStr s2 k = none) →
      lookupStr (mergeSources sources cli) k = some v) := by
  have hm : lookupStr (mergeSources sources cli) k =
      match lookupStr cli k with
      | some v => some v
      | none => specLastLookup sources k := by
    unfold mergeSources
    rw [lookupStr_pyUpdateStr _ cli k hndc]
    rw [lookupStr_mergeFold sources [] k hnds]
    cases lookupStr cli k <;> cases specLastLookup sources k <;> simp [lookupStr]
  refine ⟨?_, ?_, ?_⟩
  · intro v hv
    rw [hm, hv]
  · intro hnone
    rw [hm, hnone]
  · intro pre s post v hsrc hnone hs hpost
    rw [hm, hnone, hsrc]
    exact specLastLookup_last_wins pre post s k v hs hpost

/-- Witness for claim C8 at the spec's scenario C shape: file A sets
`val_a=1`, file B sets `val_a=2, val_b=2`, the CLI sets `val_b=7`; merged,
`val_a` takes B's value (last file source) and `val_b` takes the CLI's. -/
theorem c8_merge_precedence_witness :
    lookupStr (mergeSources [[("val_a", vint 1)], [("val_a", vint 2), ("val_b", vint 2)]]
      [("val_b", vint 7)]) "val_a" = some (vint 2) ∧
    lookupStr (mergeSources [[("val_a", vint 1)], [("val_a", vint 2), ("val_b", vint 2)]]
      [("val_b", vint 7)]) "val_b" = some (vint 7) :=
  ⟨((c8_merge_precedence [[("val_a", vint 1)], [("val_a", vint 2), ("val_b", vint 2)]]
      [("val_b", vint 7)] "val_a" (by decide) (by decide)).2.1 (by decide)).trans
      (by decide),
   (c8_merge_precedence [[("val_a", vint 1)], [("val_a", vint 2), ("val_b", vint 2)]]
      [("val_b", vint 7)] "val_b" (by decide) (by decide)).1 (vint 7) (by decide)⟩

/-- Claim C9 (confirmed).  The `config_type` context manager always restores
the previously active format selector on exit: for every prior format `p`,
new format `n` and inner operation, the selector afterwards equals `p`
whether the inner operation returned normally or raised (its outcome, normal
or exceptional, is propagated unchanged). -/
theorem c9_config_type_restore {α ε : Type} (p n : ConfigFormat)
    (inner : ConfigFormat → Except ε α × ConfigFormat) :
    (configTypeScoped n inner p).2 = getConfigType p ∧
    (configTypeScoped n inner p).1 = (inner (setConfigType n p)).1 :=
  ⟨rfl, rfl⟩

/-- Claim C10 (confirmed).  `decode_dataclass` returns `None` unchanged when
the raw value is `None` (`if d is None: return None`), for every record type
— including ones with required fields — touching neither a field decoder nor
the constructor. -/
theorem c10_decode_dataclass_none (cname : String) (fs : List FieldSpec) :
    decode (.dataA cname fs) vnone = .ok vnone := rfl

end Pyrallis
